import Mathlib

/-!
Verification development for the merrino-memory Rust CLI
(content-to-chunk pipeline, incremental-indexing decision logic,
and retrieval entry points).

The Rust sources are shallowly embedded as Lean functions.  Strings are
modelled as Lean `String` (a list of Unicode scalar values); Rust's
`str::len`, which counts UTF-8 BYTES, is modelled by `rustLen` (the sum
of `Char.utf8Size` over the characters), never by `String.length`.
Rust's `str::trim` (Unicode whitespace) is modelled by `rustTrim`, which
strips the ASCII whitespace characters — the only whitespace relevant to
the claims.  External collaborators (the JSON parser, the embedding
service, the SQL store, the file system) are passed in as explicit
function parameters, mirroring the spec's "opaque collaborator" boundary.
-/

/-- Whitespace predicate used by the model of Rust's `str::trim`. -/
def wsChar (c : Char) : Bool :=
  c = ' ' || c = '\t' || c = '\n' || c = '\r'

/-- UTF-8 byte length of a character list (model of Rust `str::len`). -/
def utf8Len (l : List Char) : Nat :=
  (l.map (fun c => c.utf8Size)).sum

/-- UTF-8 byte length of a string (model of Rust `String::len` / `str::len`). -/
def rustLen (s : String) : Nat := utf8Len s.data

/-- Trim leading and trailing whitespace from a character list. -/
def trimL (l : List Char) : List Char :=
  ((l.dropWhile wsChar).reverse.dropWhile wsChar).reverse

/-- Model of Rust `str::trim`. -/
def rustTrim (s : String) : String := String.mk (trimL s.data)

/-- Split a character list on every (non-overlapping, leftmost) occurrence of
the two-character separator `"\n\n"`; model of Rust `text.split("\n\n")`. -/
def splitNN : List Char → List (List Char)
  | [] => [[]]
  | '\n' :: '\n' :: rest => [] :: splitNN rest
  | c :: rest =>
    match splitNN rest with
    | [] => [[c]]
    | l :: ls => (c :: l) :: ls

/-- The paragraph list of a text: `text.split("\n\n")` from `chunk_text`. -/
def splitParas (text : String) : List String :=
  (splitNN text.data).map (fun l => String.mk l)

/-- The greedy paragraph-accumulation loop of `chunk_text`
(src/rust-cli/src/chunk.rs lines 8-26): `current` is the running buffer;
paragraphs are trimmed, empty ones dropped; a paragraph that would make the
buffer exceed `maxChars` bytes flushes the buffer first.  Finally a non-empty
buffer is flushed. -/
def chunkAccum (maxChars : Nat) : List String → String → List String
  | [], current =>
    if rustTrim current = "" then [] else [rustTrim current]
  | para :: rest, current =>
    if rustTrim para = "" then
      chunkAccum maxChars rest current
    else if current ≠ "" ∧ maxChars < rustLen current + rustLen (rustTrim para) + 2 then
      rustTrim current :: chunkAccum maxChars rest (rustTrim para)
    else
      chunkAccum maxChars rest
        (if current = "" then rustTrim para else current ++ "\n\n" ++ rustTrim para)

/-- Model of `chunk_text` (src/rust-cli/src/chunk.rs lines 3-30):
split on `"\n\n"`, greedily accumulate, then keep only chunks of more than
20 bytes (`c.len() > 20` in Rust counts bytes). -/
def chunk_text (text : String) (maxChars : Nat) : List String :=
  (chunkAccum maxChars (splitParas text) "").filter (fun c => decide (20 < rustLen c))

example : chunk_text "" 800 = [] := by decide
example : chunk_text "aaaaaaaaaaaaaaaaaaaa" 800 = [] := by decide
example : chunk_text "aaaaaaaaaaaaaaaaaaaaa" 800 = ["aaaaaaaaaaaaaaaaaaaaa"] := by decide
example : chunk_text "€€€€€€€" 800 = ["€€€€€€€"] := by decide

/-- One position of the date pattern `\d{4}-\d{2}-\d{2}`: true iff the list
starts with four digits, a hyphen, two digits, a hyphen and two digits.
Digits are modelled as the ASCII digits 0-9 (the claims and the spec's
examples use only those; the source's `\d` also accepts other Unicode
decimal digits, a strictly wider class irrelevant here). -/
def dateAt : List Char → Bool
  | a :: b :: c :: d :: e :: f :: g :: h :: i :: j :: _ =>
    a.isDigit && b.isDigit && c.isDigit && d.isDigit && e = '-' &&
    f.isDigit && g.isDigit && h = '-' && i.isDigit && j.isDigit
  | _ => false

/-- Leftmost-match scan for the date pattern (the regex engine tries each
start position from the left, as `Regex::captures` does). -/
def findDate : List Char → Option String
  | [] => none
  | c :: rest =>
    if dateAt (c :: rest) then some (String.mk ((c :: rest).take 10))
    else findDate rest

/-- Model of `extract_date` (src/rust-cli/src/chunk.rs lines 33-36):
first unanchored match of `\d{4}-\d{2}-\d{2}`, verbatim, no calendar
validation. -/
def extract_date (filename : String) : Option String :=
  findDate filename.data

example : extract_date "2026-01-30.md" = some "2026-01-30" := by decide
example : extract_date "notes.md" = none := by decide
example : extract_date "log-2026-01-30-final.jsonl" = some "2026-01-30" := by decide
example : extract_date "2026-13-99" = some "2026-13-99" := by decide

/-- Model of `serde_json::Value` (external collaborator). -/
inductive Json where
  | null
  | bool (b : Bool)
  | num (n : Int)
  | str (s : String)
  | arr (xs : List Json)
  | obj (fields : List (String × Json))

/-- Model of `Value::get(key)` on objects (`None` on anything else). -/
def Json.get (j : Json) (key : String) : Option Json :=
  match j with
  | .obj fields => (fields.find? (fun f => decide (f.1 = key))).map (fun f => f.2)
  | _ => none

/-- Model of `Value::as_str`. -/
def Json.asStr : Json → Option String
  | .str s => some s
  | _ => none

/-- `msg.get(k).and_then(|r| r.as_str()).unwrap_or("")` from `parse_transcript`. -/
def getStr (j : Json) (key : String) : String :=
  ((j.get key).bind Json.asStr).getD ""

/-- One content segment: contributes its `"text"` field iff its `"type"`
field is the string `"text"` (chunk.rs lines 62-68 and 80-87). -/
def segText (c : Json) : Option String :=
  if (c.get "type").bind Json.asStr = some "text" then
    (c.get "text").bind Json.asStr
  else none

/-- Join a list of strings with a separator (model of `Vec::join`). -/
def joinSep (sep : String) : List String → String
  | [] => ""
  | [t] => t
  | t :: ts => t ++ sep ++ joinSep sep ts

/-- Content extraction from a `content` field value: a plain string is taken
as is; an array keeps the text of its `"text"`-typed segments joined with
single spaces; anything else (including a missing field) yields `""`
(chunk.rs lines 58-72 and 77-91). -/
def contentOf (v : Option Json) : String :=
  match v with
  | some (.str s) => s
  | some (.arr xs) => joinSep " " (xs.filterMap segText)
  | _ => ""

/-- The (role, content) normalization of one parsed record (chunk.rs lines
54-93): records whose `"type"` field is `"message"` read role/content from
the nested `"message"` object (falling back to the record itself if that
field is absent); all other records read them from the record directly. -/
def extractRC (entry : Json) : String × String :=
  if (entry.get "type").bind Json.asStr = some "message" then
    (getStr ((entry.get "message").getD entry) "role",
     contentOf (((entry.get "message").getD entry).get "content"))
  else
    (getStr entry "role", contentOf (entry.get "content"))

/-- Retention test of chunk.rs line 95: role is exactly `"user"` or
`"assistant"` and the content is longer than 20 bytes. -/
def keepRC (rc : String × String) : Bool :=
  (decide (rc.1 = "user") || decide (rc.1 = "assistant")) && decide (20 < rustLen rc.2)

/-- Rendering of a retained pair: `format!("[{}] {}", role, content)`. -/
def renderMsg (rc : String × String) : String :=
  "[" ++ rc.1 ++ "] " ++ rc.2

/-- Split a character list at every `'\n'` (helper for `str::lines`). -/
def splitCh : List Char → List (List Char)
  | [] => [[]]
  | c :: rest =>
    if c = '\n' then [] :: splitCh rest
    else
      match splitCh rest with
      | [] => [[c]]
      | l :: ls => (c :: l) :: ls

/-- Strip one trailing `'\r'` (the `\r\n` half handled by `str::lines`). -/
def stripCR (l : List Char) : List Char :=
  if l.getLast? = some '\r' then l.dropLast else l

/-- Model of Rust `str::lines`: split at `'\n'`, strip a `'\r'` left at the
end of every newline-terminated piece, and drop the final piece when the
text ends with a newline (or is empty). -/
def rustLines (s : String) : List String :=
  match (splitCh s.data).getLast? with
  | some [] => (splitCh s.data).dropLast.map (fun l => String.mk (stripCR l))
  | some l => (splitCh s.data).dropLast.map (fun l => String.mk (stripCR l)) ++ [String.mk l]
  | none => (splitCh s.data).dropLast.map (fun l => String.mk (stripCR l))

/-- Per-line processing of `parse_transcript` (chunk.rs lines 45-98): trim
the line; skip it when empty; parse it with the external JSON parser
`fromStr`, skipping it on failure; normalize to (role, content) and render
it when retained. -/
def lineMsg (fromStr : String → Option Json) (line : String) : Option String :=
  if rustTrim line = "" then none
  else
    match fromStr (rustTrim line) with
    | none => none
    | some j => if keepRC (extractRC j) then some (renderMsg (extractRC j)) else none

/-- The retained, rendered messages of a transcript, in input order. -/
def transcriptMessages (fromStr : String → Option Json) (text : String) : List String :=
  (rustLines text).filterMap (lineMsg fromStr)

/-- Model of `parse_transcript` (chunk.rs lines 42-106): when no message is
retained the result is empty; otherwise the messages are joined with blank
lines and chunked with a maximum size of 1000. -/
def parse_transcript (fromStr : String → Option Json) (text : String) : List String :=
  if transcriptMessages fromStr text = [] then []
  else chunk_text (joinSep "\n\n" (transcriptMessages fromStr text)) 1000

/-- The per-file decision of `run_incremental_index`
(src/rust-cli/src/index.rs lines 69-107): with a stored watermark, a
readable mtime at most the watermark means skip, a larger mtime means
update (delete then re-index), an unreadable mtime means skip; without a
watermark the file is indexed as new and the mtime is never consulted. -/
inductive IndexAction where
  | New
  | Skip
  | Update
deriving DecidableEq

def decide_action (watermark : Option Int) (mtime : Option Int) : IndexAction :=
  match watermark with
  | some last =>
    match mtime with
    | some m => if m ≤ last then .Skip else .Update
    | none => .Skip
  | none => .New

/-- A stored chunk, reduced to the fields the claims depend on. -/
structure Chunk where
  source_path : String
  content : String
deriving DecidableEq

/-- Model of `delete_chunks_for` (index.rs lines 273-286): remove every
chunk of the given source path, returning the remaining store and the
number of rows deleted. -/
def delete_chunks_for (st : List Chunk) (p : String) : List Chunk × Nat :=
  (st.filter (fun c => decide (¬ c.source_path = p)),
   (st.filter (fun c => decide (c.source_path = p))).length)

/-- The inserts performed by `index_markdown_file` / `index_transcript_file`
for one file: one row appended per chunk text (index.rs lines 164-189 and
223-247 only ever INSERT). -/
def insert_chunks (st : List Chunk) (p : String) (texts : List String) : List Chunk :=
  st ++ texts.map (fun t => { source_path := p, content := t })

/-- Store effect of one file in `run_incremental_index` (index.rs lines
63-108): skip leaves the store unchanged; a new file only inserts; an
updated file first deletes its old chunks, then inserts the fresh ones. -/
def incr_process_file (st : List Chunk) (watermark : Option Int) (p : String)
    (mtime : Option Int) (texts : List String) : List Chunk :=
  match decide_action watermark mtime with
  | .Skip => st
  | .New => insert_chunks st p texts
  | .Update => insert_chunks (delete_chunks_for st p).1 p texts

/-- Chunk texts produced for one markdown file by `index_markdown_file`
(index.rs lines 154-159): files of fewer than 30 bytes yield nothing,
others are chunked at 800. -/
def index_markdown_chunks (text : String) : List String :=
  if rustLen text < 30 then [] else chunk_text text 800

/-- Store effect of `run_full_index` (index.rs lines 10-43): every file's
chunks are inserted in turn; no code path of the full index deletes. -/
def run_full_index_store (st : List Chunk) (files : List (String × List String)) : List Chunk :=
  files.foldl (fun s f => insert_chunks s f.1 f.2) st

/-- External calls made by `search` (src/rust-cli/src/search.rs), in order. -/
inductive SearchEffect where
  | embedCall (text : String)
  | storeQuery (limit : Int)
deriving DecidableEq

/-- Model of `search` (search.rs lines 17-79): the embedding call comes
first (line 18) and may fail; then the store is queried with `LIMIT top_k`
interpolated verbatim (lines 36-46); the rows come back as the result.
`top_k` is never validated.  The embedding service and the store are the
opaque collaborators `embedF` and `storeF`; the returned list of effects
records the external calls in the order they are issued. -/
def search {V R : Type} (embedF : String → Except String V)
    (storeF : V → Int → Except String (List R))
    (query : String) (topK : Int) : Except String (List R) × List SearchEffect :=
  match embedF query with
  | .error e => (.error e, [.embedCall query])
  | .ok v =>
    match storeF v topK with
    | .error e => (.error e, [.embedCall query, .storeQuery topK])
    | .ok rows => (.ok rows, [.embedCall query, .storeQuery topK])

/-- The file-name part of a path (after the last `'/'`). -/
def fileNameOf (p : String) : String :=
  String.mk ((p.data.reverse.takeWhile (fun c => decide (¬ c = '/'))).reverse)

/-- Model of Rust `Path::extension`: the part of the file name after the
last dot; none when there is no dot or when the only dot is the leading
dot of a hidden file. -/
def extension (p : String) : Option String :=
  let n := (fileNameOf p).data
  let afterDot := n.reverse.takeWhile (fun c => decide (¬ c = '.'))
  if afterDot.length = n.length then none
  else if afterDot.length + 1 = n.length ∧ n.head? = some '.' then none
  else some (String.mk afterDot.reverse)

example : extension "dir/a.md" = some "md" := by decide
example : extension "dir/.md" = none := by decide
example : extension "dir/amd" = none := by decide

/-- Byte-wise lexicographic order on character lists: the model of the
`Ord` used by `entries.sort_by_key(|e| e.path())`. -/
def lexLe : List Char → List Char → Bool
  | [], _ => true
  | _ :: _, [] => false
  | a :: as, b :: bs => if a < b then true else if b < a then false else lexLe as bs

def pathLe (a b : String) : Bool := lexLe a.data b.data

/-- Processing order of `index_markdown_dir` / `index_transcript_dir`
(index.rs lines 134-138 and 202-206): the directory enumeration (given
here as `entries`, full paths in enumeration order) is filtered by
extension and then sorted by path. -/
def index_dir_files (ext : String) (entries : List String) : List String :=
  (entries.filter (fun e => decide (extension e = some ext))).mergeSort pathLe

/-- A configured source (src/rust-cli/src/config.rs). -/
structure Source where
  path : String
  source_type : String
  source_label : Option String

/-- Model of `collect_all_files` (index.rs lines 288-322): for each source,
a single file if it exists, or the directory enumeration filtered by
extension — in enumeration order, without sorting.  The file system is the
opaque pair `readDir` (full paths, in the order `read_dir` yields them)
and `fileExists`. -/
def collect_all_files (readDir : String → Option (List String))
    (fileExists : String → Bool) (sources : List Source) :
    List (String × String × String) :=
  sources.flatMap (fun source =>
    if source.source_type = "single_file" then
      if fileExists source.path then
        [(source.path, "markdown", source.source_label.getD "single_file")]
      else []
    else if source.source_type = "markdown_dir" then
      match readDir source.path with
      | some entries =>
        (entries.filter (fun e => decide (extension e = some "md"))).map
          (fun e => (e, "markdown", source.source_label.getD "daily_note"))
      | none => []
    else if source.source_type = "transcript_dir" then
      match readDir source.path with
      | some entries =>
        (entries.filter (fun e => decide (extension e = some "jsonl"))).map
          (fun e => (e, "transcript", "transcript"))
      | none => []
    else [])

/-- Fuel-indexed lower bound on the UTF-8 byte length of any JSON source
text that `serde_json` parses to the given value: a value needs at least
one byte; `null` and the booleans need 4; a number at least one digit; a
string its two quotes plus its decoded bytes (escape sequences in the
source are never shorter than the bytes they decode to); an array its
brackets plus its elements; an object its braces plus, per field, the
key's quotes and bytes, the colon, and the value (separating commas and
whitespace only add to the source).  Larger fuel gives a sharper bound;
every fuel level is a valid lower bound. -/
def jsonLBF : Nat → Json → Nat
  | 0, _ => 1
  | fuel + 1, j =>
    match j with
    | .null => 4
    | .bool _ => 4
    | .num _ => 1
    | .str s => 2 + rustLen s
    | .arr xs => 2 + (xs.map (fun x => jsonLBF fuel x)).sum
    | .obj fields => 2 + (fields.map (fun f => 3 + rustLen f.1 + jsonLBF fuel f.2)).sum

/-- A character list in "trimmed" shape: non-empty, and neither its first
nor its last character is whitespace.  This is the shape of every buffer
the chunker accumulates and of every chunk it emits. -/
def okL (l : List Char) : Prop :=
  l ≠ [] ∧ (∀ a, l.head? = some a → wsChar a = false) ∧
    (∀ a, l.getLast? = some a → wsChar a = false)

theorem utf8Len_nil : utf8Len [] = 0 := rfl

theorem utf8Len_cons (c : Char) (l : List Char) :
    utf8Len (c :: l) = c.utf8Size + utf8Len l := by
  simp [utf8Len]

theorem utf8Len_append (a b : List Char) :
    utf8Len (a ++ b) = utf8Len a + utf8Len b := by
  simp [utf8Len, List.sum_append]

theorem utf8Len_reverse (l : List Char) : utf8Len l.reverse = utf8Len l := by
  simp [utf8Len, List.map_reverse, List.sum_reverse]

theorem utf8Len_eq_zero {l : List Char} : utf8Len l = 0 ↔ l = [] := by
  cases l with
  | nil => simp [utf8Len_nil]
  | cons c cs =>
    simp only [utf8Len_cons]
    have := Char.utf8Size_pos c
    constructor
    · intro h; omega
    · intro h; exact absurd h (List.cons_ne_nil c cs)

theorem rustLen_append (s t : String) :
    rustLen (s ++ t) = rustLen s + rustLen t := by
  simp [rustLen, String.data_append, utf8Len_append]

theorem rustLen_mk (l : List Char) : rustLen (String.mk l) = utf8Len l := rfl

theorem rustLen_eq_zero {s : String} : rustLen s = 0 ↔ s = "" := by
  rw [rustLen, utf8Len_eq_zero]
  constructor
  · intro h; exact String.ext h
  · intro h; rw [h]

theorem utf8Len_dropWhile_le (p : Char → Bool) (l : List Char) :
    utf8Len (l.dropWhile p) ≤ utf8Len l := by
  induction l with
  | nil => simp [List.dropWhile]
  | cons c cs ih =>
    rw [List.dropWhile_cons]
    by_cases h : p c
    · simp only [h, if_true, utf8Len_cons]
      omega
    · simp [h]

theorem utf8Len_trimL_le (l : List Char) : utf8Len (trimL l) ≤ utf8Len l := by
  unfold trimL
  calc utf8Len ((l.dropWhile wsChar).reverse.dropWhile wsChar).reverse
      = utf8Len ((l.dropWhile wsChar).reverse.dropWhile wsChar) := utf8Len_reverse _
    _ ≤ utf8Len (l.dropWhile wsChar).reverse := utf8Len_dropWhile_le _ _
    _ = utf8Len (l.dropWhile wsChar) := utf8Len_reverse _
    _ ≤ utf8Len l := utf8Len_dropWhile_le _ _

theorem rustLen_trim_le (s : String) : rustLen (rustTrim s) ≤ rustLen s :=
  utf8Len_trimL_le s.data

theorem head?_dropWhile_false (p : Char → Bool) (l : List Char) :
    ∀ a, (l.dropWhile p).head? = some a → p a = false := by
  induction l with
  | nil => intro a h; simp [List.dropWhile] at h
  | cons c cs ih =>
    intro a h
    rw [List.dropWhile_cons] at h
    by_cases hc : p c
    · rw [if_pos hc] at h
      exact ih a h
    · rw [if_neg hc] at h
      rw [List.head?_cons, Option.some.injEq] at h
      subst h
      simpa using hc

theorem dropWhile_suffix_ex (p : Char → Bool) (l : List Char) :
    ∃ t, t ++ l.dropWhile p = l := by
  induction l with
  | nil => exact ⟨[], rfl⟩
  | cons c cs ih =>
    rw [List.dropWhile_cons]
    by_cases hc : p c
    · obtain ⟨t, ht⟩ := ih
      exact ⟨c :: t, by simp [hc, ht]⟩
    · exact ⟨[], by simp [hc]⟩

theorem trimL_nil : trimL [] = [] := rfl

theorem trimL_ok {l : List Char} (h : trimL l ≠ []) : okL (trimL l) := by
  refine ⟨h, ?_, ?_⟩
  · -- the head of the trimmed list is the head of `dropWhile ws l`
    intro a ha
    obtain ⟨t, ht⟩ := dropWhile_suffix_ex wsChar (l.dropWhile wsChar).reverse
    have hpre : trimL l ++ t.reverse = l.dropWhile wsChar := by
      have := congrArg List.reverse ht
      simpa [trimL, List.reverse_append] using this
    have : (l.dropWhile wsChar).head? = some a := by
      rw [← hpre, List.head?_append, ha]
      rfl
    exact head?_dropWhile_false wsChar l a this
  · intro a ha
    have : ((l.dropWhile wsChar).reverse.dropWhile wsChar).head? = some a := by
      rw [trimL, List.getLast?_reverse] at ha
      exact ha
    exact head?_dropWhile_false wsChar _ a this

theorem trimL_eq_self {l : List Char} (h : okL l) : trimL l = l := by
  obtain ⟨hne, hh, hl⟩ := h
  have h1 : l.dropWhile wsChar = l := by
    cases l with
    | nil => rfl
    | cons c cs =>
      rw [List.dropWhile_cons, hh c (by rfl)]
      simp
  have h2 : l.reverse.dropWhile wsChar = l.reverse := by
    cases hr : l.reverse with
    | nil => rfl
    | cons d ds =>
      rw [List.dropWhile_cons]
      have : l.getLast? = some d := by
        rw [← List.head?_reverse, hr, List.head?_cons]
      rw [hl d this]
      simp
  unfold trimL
  rw [h1, h2, List.reverse_reverse]

theorem rustTrim_eq_self {s : String} (h : okL s.data) : rustTrim s = s :=
  String.ext (trimL_eq_self h)

theorem rustTrim_empty : rustTrim "" = "" := rfl

theorem rustTrim_eq_empty_iff {s : String} : rustTrim s = "" ↔ trimL s.data = [] := by
  constructor
  · intro h
    have := congrArg String.data h
    simpa [rustTrim] using this
  · intro h
    apply String.ext
    simpa [rustTrim] using h

theorem okL_of_rustTrim {s : String} (h : rustTrim s ≠ "") : okL (rustTrim s).data := by
  have : trimL s.data ≠ [] := fun hc => h (rustTrim_eq_empty_iff.mpr hc)
  simpa [rustTrim] using trimL_ok this

theorem okL_ne_empty {s : String} (h : okL s.data) : s ≠ "" := by
  intro hc
  exact h.1 (by rw [hc])

theorem okL_append_sep {a b : String} (ha : okL a.data) (hb : okL b.data) :
    okL (a ++ "\n\n" ++ b).data := by
  have hdata : (a ++ "\n\n" ++ b).data = a.data ++ ('\n' :: '\n' :: b.data) := by
    rw [String.data_append, String.data_append, List.append_assoc]
    rfl
  rw [hdata]
  obtain ⟨hane, hah, hal⟩ := ha
  obtain ⟨hbne, hbh, hbl⟩ := hb
  refine ⟨by simp, ?_, ?_⟩
  · intro x hx
    rw [List.head?_append] at hx
    cases hha : a.data.head? with
    | none => exact absurd (List.head?_eq_none_iff.mp hha) hane
    | some y =>
      rw [hha] at hx
      have hx' : some y = some x := hx
      rw [Option.some.injEq] at hx'
      subst hx'
      exact hah y hha
  · intro x hx
    obtain ⟨y, ys, hby⟩ := List.exists_cons_of_ne_nil hbne
    rw [List.getLast?_append, hby, List.getLast?_cons_cons, List.getLast?_cons_cons] at hx
    cases hyg : (y :: ys).getLast? with
    | none => simp [List.getLast?_eq_none_iff] at hyg
    | some z =>
      rw [hyg] at hx
      have hx' : some z = some x := hx
      rw [Option.some.injEq] at hx'
      subst hx'
      apply hbl
      rw [hby]
      exact hyg

theorem rustLen_sep : rustLen "\n\n" = 2 := by decide

/-- Main chunker invariant: starting from an empty buffer, or a trimmed
non-empty buffer that is either a trimmed paragraph (collected in `S`) or
within the size bound, every emitted chunk is trimmed non-empty and is
either a trimmed paragraph or within the size bound. -/
theorem chunkAccum_invariant (maxC : Nat) (S : List String) :
    ∀ ps : List String, (∀ q ∈ ps, rustTrim q ∈ S) →
    ∀ cur : String, (cur = "" ∨ (okL cur.data ∧ (cur ∈ S ∨ rustLen cur ≤ maxC))) →
    ∀ c ∈ chunkAccum maxC ps cur, okL c.data ∧ (c ∈ S ∨ rustLen c ≤ maxC) := by
  intro ps
  induction ps with
  | nil =>
    intro _ cur hcur c hc
    simp only [chunkAccum] at hc
    by_cases h : rustTrim cur = ""
    · rw [if_pos h] at hc
      exact absurd hc (List.not_mem_nil c)
    · rw [if_neg h] at hc
      rcases List.mem_singleton.mp hc with rfl
      rcases hcur with rfl | ⟨hok, hmem⟩
      · exact absurd rustTrim_empty h
      · rw [rustTrim_eq_self hok]
        exact ⟨hok, hmem⟩
  | cons para rest ih =>
    intro hps cur hcur c hc
    have hps' : ∀ q ∈ rest, rustTrim q ∈ S := fun q hq => hps q (List.mem_cons_of_mem _ hq)
    simp only [chunkAccum] at hc
    by_cases h1 : rustTrim para = ""
    · rw [if_pos h1] at hc
      exact ih hps' cur hcur c hc
    · rw [if_neg h1] at hc
      have hpok : okL (rustTrim para).data := okL_of_rustTrim h1
      have hpS : rustTrim para ∈ S := hps para (List.mem_cons_self _ _)
      by_cases h2 : cur ≠ "" ∧ maxC < rustLen cur + rustLen (rustTrim para) + 2
      · rw [if_pos h2] at hc
        rcases List.mem_cons.mp hc with rfl | hc'
        · rcases hcur with rfl | ⟨hok, hmem⟩
          · exact absurd rfl h2.1
          · rw [rustTrim_eq_self hok]
            exact ⟨hok, hmem⟩
        · exact ih hps' (rustTrim para) (Or.inr ⟨hpok, Or.inl hpS⟩) c hc'
      · rw [if_neg h2] at hc
        by_cases h3 : cur = ""
        · rw [if_pos h3] at hc
          exact ih hps' (rustTrim para) (Or.inr ⟨hpok, Or.inl hpS⟩) c hc
        · rw [if_neg h3] at hc
          push_neg at h2
          have hlen : rustLen cur + rustLen (rustTrim para) + 2 ≤ maxC := h2 h3
          rcases hcur with rfl | ⟨hok, _⟩
          · exact absurd rfl h3
          · have hok' : okL (cur ++ "\n\n" ++ rustTrim para).data := okL_append_sep hok hpok
            have hlen' : rustLen (cur ++ "\n\n" ++ rustTrim para) ≤ maxC := by
              rw [rustLen_append, rustLen_append, rustLen_sep]
              omega
            exact ih hps' _ (Or.inr ⟨hok', Or.inr hlen'⟩) c hc

/-- A buffer holding a single paragraph that alone exceeds the bound is
always emitted as is: every later paragraph flushes it untouched. -/
theorem chunkAccum_self_mem (maxC : Nat) {p : String} (hbig : maxC < rustLen p)
    (hok : okL p.data) : ∀ ps, p ∈ chunkAccum maxC ps p := by
  intro ps
  induction ps with
  | nil =>
    simp only [chunkAccum]
    rw [rustTrim_eq_self hok, if_neg (okL_ne_empty hok)]
    exact List.mem_singleton.mpr rfl
  | cons q rest ih =>
    simp only [chunkAccum]
    by_cases h1 : rustTrim q = ""
    · rw [if_pos h1]
      exact ih
    · have hcond : p ≠ "" ∧ maxC < rustLen p + rustLen (rustTrim q) + 2 :=
        ⟨okL_ne_empty hok, by omega⟩
      rw [if_neg h1, if_pos hcond, rustTrim_eq_self hok]
      exact List.mem_cons_self _ _

/-- Any trimmed paragraph that alone exceeds the bound ends up in the
accumulator output, whatever well-formed buffer is in flight. -/
theorem chunkAccum_oversized_mem (maxC : Nat) {p : String} (hbig : maxC < rustLen p) :
    ∀ ps (cur : String), (cur = "" ∨ okL cur.data) → (∃ q ∈ ps, rustTrim q = p) →
      p ∈ chunkAccum maxC ps cur := by
  intro ps
  induction ps with
  | nil =>
    rintro cur _ ⟨q, hq, _⟩
    exact absurd hq (List.not_mem_nil q)
  | cons q0 rest ih =>
    rintro cur hcur ⟨q, hq, hqp⟩
    have hpne : p ≠ "" := by
      intro hc
      rw [hc] at hbig
      simp [rustLen, utf8Len_nil] at hbig
    simp only [chunkAccum]
    by_cases hq0 : rustTrim q0 = p
    · have h1 : ¬ rustTrim q0 = "" := by
        rw [hq0]
        exact hpne
      have hpok : okL p.data := by
        rw [← hq0]
        exact okL_of_rustTrim h1
      rw [if_neg h1, hq0]
      by_cases h3 : cur = ""
      · have hcond : ¬(cur ≠ "" ∧ maxC < rustLen cur + rustLen p + 2) := fun hc => hc.1 h3
        rw [if_neg hcond, if_pos h3]
        exact chunkAccum_self_mem maxC hbig hpok rest
      · have hcond : cur ≠ "" ∧ maxC < rustLen cur + rustLen p + 2 := ⟨h3, by omega⟩
        rw [if_pos hcond]
        exact List.mem_cons_of_mem _ (chunkAccum_self_mem maxC hbig hpok rest)
    · have hq' : q ∈ rest := by
        rcases List.mem_cons.mp hq with rfl | h
        · exact absurd hqp hq0
        · exact h
      by_cases h1 : rustTrim q0 = ""
      · rw [if_pos h1]
        exact ih cur hcur ⟨q, hq', hqp⟩
      · rw [if_neg h1]
        have hok0 : okL (rustTrim q0).data := okL_of_rustTrim h1
        by_cases h2 : cur ≠ "" ∧ maxC < rustLen cur + rustLen (rustTrim q0) + 2
        · rw [if_pos h2]
          exact List.mem_cons_of_mem _ (ih (rustTrim q0) (Or.inr hok0) ⟨q, hq', hqp⟩)
        · rw [if_neg h2]
          by_cases h3 : cur = ""
          · rw [if_pos h3]
            exact ih (rustTrim q0) (Or.inr hok0) ⟨q, hq', hqp⟩
          · rw [if_neg h3]
            rcases hcur with rfl | hokc
            · exact absurd rfl h3
            · exact ih (cur ++ "\n\n" ++ rustTrim q0)
                (Or.inr (okL_append_sep hokc hok0)) ⟨q, hq', hqp⟩

/-- The greedy append/flush dichotomy of one accumulation step. -/
theorem chunkAccum_step (maxC : Nat) (cur para : String) (rest : List String)
    (hcur : cur ≠ "") (hp : rustTrim para ≠ "") :
    (rustLen (cur ++ "\n\n" ++ rustTrim para) ≤ maxC ∧
      chunkAccum maxC (para :: rest) cur =
        chunkAccum maxC rest (cur ++ "\n\n" ++ rustTrim para))
    ∨ (maxC < rustLen (cur ++ "\n\n" ++ rustTrim para) ∧
      chunkAccum maxC (para :: rest) cur =
        rustTrim cur :: chunkAccum maxC rest (rustTrim para)) := by
  have hlen : rustLen (cur ++ "\n\n" ++ rustTrim para)
      = rustLen cur + rustLen (rustTrim para) + 2 := by
    rw [rustLen_append, rustLen_append, rustLen_sep]
    omega
  by_cases h2 : maxC < rustLen cur + rustLen (rustTrim para) + 2
  · right
    refine ⟨by omega, ?_⟩
    simp only [chunkAccum]
    rw [if_neg hp, if_pos ⟨hcur, h2⟩]
  · left
    refine ⟨by omega, ?_⟩
    simp only [chunkAccum]
    rw [if_neg hp, if_neg (fun hc : cur ≠ "" ∧ _ => h2 hc.2), if_neg hcur]

/-- Claim C3 (amended).  With lengths measured as Rust measures them — in
UTF-8 bytes — every chunk returned by `chunk_text` either has length at
most `max_chars` or is one of the trimmed paragraphs of the input; a single
trimmed paragraph longer than `max_chars` is emitted unsplit as its own
oversized chunk PROVIDED it also exceeds the 20-byte post-filter minimum
(otherwise the post-filter discards it, see the counterexample); and a
paragraph is appended to a non-empty buffer (with a blank-line separator)
exactly when the resulting buffer would not exceed `max_chars`. -/
theorem claim_C3_amended (text : String) (maxC : Nat) :
    (∀ c ∈ chunk_text text maxC, rustLen c ≤ maxC ∨ c ∈ (splitParas text).map rustTrim)
    ∧ (∀ p ∈ (splitParas text).map rustTrim, maxC < rustLen p → 20 < rustLen p →
        p ∈ chunk_text text maxC)
    ∧ (∀ cur para rest, cur ≠ "" → rustTrim para ≠ "" →
        ((rustLen (cur ++ "\n\n" ++ rustTrim para) ≤ maxC ∧
           chunkAccum maxC (para :: rest) cur =
             chunkAccum maxC rest (cur ++ "\n\n" ++ rustTrim para))
         ∨ (maxC < rustLen (cur ++ "\n\n" ++ rustTrim para) ∧
           chunkAccum maxC (para :: rest) cur =
             rustTrim cur :: chunkAccum maxC rest (rustTrim para)))) := by
  refine ⟨?_, ?_, ?_⟩
  · intro c hc
    rw [chunk_text, List.mem_filter] at hc
    have hinv := chunkAccum_invariant maxC ((splitParas text).map rustTrim) (splitParas text)
      (fun q hq => List.mem_map_of_mem _ hq) "" (Or.inl rfl) c hc.1
    exact hinv.2.symm
  · intro p hp hbig h20
    rw [chunk_text, List.mem_filter]
    obtain ⟨q, hq, hqp⟩ := List.mem_map.mp hp
    refine ⟨chunkAccum_oversized_mem maxC hbig (splitParas text) "" (Or.inl rfl) ⟨q, hq, hqp⟩, ?_⟩
    exact decide_eq_true h20
  · intro cur para rest hcur hp
    exact chunkAccum_step maxC cur para rest hcur hp

/-- Claim C3 counterexample: with `max_chars = 1` the sole paragraph
`"aaaaaaaaaa"` (10 bytes, longer than `max_chars`) is NOT emitted as its
own oversized chunk — the 20-byte post-filter discards it — refuting the
claim's unconditional "emitted unsplit as its own oversized chunk" for
every positive `max_chars`. -/
theorem claim_C3_counterexample :
    splitParas "aaaaaaaaaa" = ["aaaaaaaaaa"] ∧ rustTrim "aaaaaaaaaa" = "aaaaaaaaaa" ∧
    1 < rustLen "aaaaaaaaaa" ∧ chunk_text "aaaaaaaaaa" 1 = [] := by decide

/-- Witness for claim C3: a 25-byte single paragraph with `max_chars = 10`
is emitted unsplit. -/
theorem claim_C3_witness :
    "aaaaaaaaaaaaaaaaaaaaaaaaa" ∈ chunk_text "aaaaaaaaaaaaaaaaaaaaaaaaa" 10 :=
  (claim_C3_amended "aaaaaaaaaaaaaaaaaaaaaaaaa" 10).2.1 "aaaaaaaaaaaaaaaaaaaaaaaaa"
    (by decide) (by decide) (by decide)

/-- Claim C9 (confirmed): every chunk returned by `chunk_text` is non-empty,
carries no leading or trailing whitespace (trimming it is a no-op), and is
longer than 20 (bytes — the code's `len()` notion of length). -/
theorem claim_C9_chunk_invariants (text : String) (maxC : Nat) :
    ∀ c ∈ chunk_text text maxC, c ≠ "" ∧ rustTrim c = c ∧ 20 < rustLen c := by
  intro c hc
  rw [chunk_text, List.mem_filter] at hc
  have hinv := chunkAccum_invariant maxC ((splitParas text).map rustTrim) (splitParas text)
    (fun q hq => List.mem_map_of_mem _ hq) "" (Or.inl rfl) c hc.1
  exact ⟨okL_ne_empty hinv.1, rustTrim_eq_self hinv.1, of_decide_eq_true hc.2⟩

/-- Witness for claim C9 at a concrete chunk. -/
theorem claim_C9_witness :
    "aaaaaaaaaaaaaaaaaaaaa" ≠ "" ∧ rustTrim "aaaaaaaaaaaaaaaaaaaaa" = "aaaaaaaaaaaaaaaaaaaaa" ∧
    20 < rustLen "aaaaaaaaaaaaaaaaaaaaa" :=
  claim_C9_chunk_invariants "aaaaaaaaaaaaaaaaaaaaa" 800 _ (by decide)

/-- Claim C4 (amended): the chunker's minimum-size post-filter measures
BYTES, not characters (Rust `len()`): a chunk whose trimmed byte length is
at most 20 is discarded and one of 21 or more bytes is retained; the
`"a".repeat(20)` / `"a".repeat(21)` examples hold because for ASCII bytes
and characters coincide. -/
theorem claim_C4_amended :
    (∀ text maxC c, c ∈ chunk_text text maxC → 20 < rustLen c)
    ∧ chunk_text "aaaaaaaaaaaaaaaaaaaa" 800 = []
    ∧ chunk_text "aaaaaaaaaaaaaaaaaaaaa" 800 = ["aaaaaaaaaaaaaaaaaaaaa"] := by
  refine ⟨?_, by decide, by decide⟩
  intro text maxC c hc
  rw [chunk_text, List.mem_filter] at hc
  exact of_decide_eq_true hc.2

/-- Witness for claim C4 at a concrete chunk. -/
theorem claim_C4_witness : 20 < rustLen "aaaaaaaaaaaaaaaaaaaaa" :=
  claim_C4_amended.1 "aaaaaaaaaaaaaaaaaaaaa" 800 _ (by decide)

/-- Claim C4 counterexample: a sole paragraph of seven three-byte
characters (7 characters, 21 bytes) has trimmed length 7 ≤ 20 CHARACTERS
yet is retained, refuting the claimed character-based measurement. -/
theorem claim_C4_counterexample :
    chunk_text "€€€€€€€" 800 = ["€€€€€€€"] ∧ ("€€€€€€€" : String).length = 7 ∧
    ¬ (20 < ("€€€€€€€" : String).length) ∧ rustTrim "€€€€€€€" = "€€€€€€€" := by decide

/-- Claim C1 (amended): the incremental-index decision per file.  No
watermark entry: the file is indexed as New — the mtime is never consulted
in this branch, so a file with an unreadable mtime and no watermark is
still indexed (this is where the original claim fails, see the
counterexample).  Watermark present: mtime ≤ watermark gives Skip with no
store change; mtime > watermark gives Update, which deletes all existing
chunks of the path and then inserts the fresh ones; an unreadable mtime
gives Skip with no store change. -/
theorem claim_C1_amended (watermark mtime : Option Int) (st : List Chunk)
    (p : String) (texts : List String) :
    (watermark = none → decide_action watermark mtime = IndexAction.New ∧
      incr_process_file st watermark p mtime texts = insert_chunks st p texts)
    ∧ (∀ w m, watermark = some w → mtime = some m → m ≤ w →
      decide_action watermark mtime = IndexAction.Skip ∧
      incr_process_file st watermark p mtime texts = st)
    ∧ (∀ w m, watermark = some w → mtime = some m → w < m →
      decide_action watermark mtime = IndexAction.Update ∧
      incr_process_file st watermark p mtime texts =
        insert_chunks (delete_chunks_for st p).1 p texts)
    ∧ (∀ w, watermark = some w → mtime = none →
      decide_action watermark mtime = IndexAction.Skip ∧
      incr_process_file st watermark p mtime texts = st) := by
  refine ⟨?_, ?_, ?_, ?_⟩
  · rintro rfl
    exact ⟨rfl, rfl⟩
  · rintro w m rfl rfl hle
    have hd : decide_action (some w) (some m) = IndexAction.Skip := by
      simp [decide_action, hle]
    refine ⟨hd, ?_⟩
    rw [incr_process_file, hd]
  · rintro w m rfl rfl hlt
    have hd : decide_action (some w) (some m) = IndexAction.Update := by
      simp [decide_action]
      omega
    refine ⟨hd, ?_⟩
    rw [incr_process_file, hd]
  · rintro w rfl rfl
    exact ⟨rfl, rfl⟩

/-- Witness for claim C1 across all four branches at concrete inputs. -/
theorem claim_C1_witness :
    (decide_action none (some 5) = IndexAction.New ∧
      incr_process_file [] none "/b.md" (some 5) ["t"] = insert_chunks [] "/b.md" ["t"])
    ∧ (decide_action (some 100) (some 100) = IndexAction.Skip ∧
      incr_process_file [] (some 100) "/a.md" (some 100) ["t"] = [])
    ∧ (decide_action (some 100) (some 101) = IndexAction.Update ∧
      incr_process_file [] (some 100) "/a.md" (some 101) ["t"] =
        insert_chunks (delete_chunks_for [] "/a.md").1 "/a.md" ["t"])
    ∧ (decide_action (some 100) none = IndexAction.Skip ∧
      incr_process_file [] (some 100) "/a.md" none ["t"] = []) :=
  ⟨(claim_C1_amended none (some 5) [] "/b.md" ["t"]).1 rfl,
   (claim_C1_amended (some 100) (some 100) [] "/a.md" ["t"]).2.1 100 100 rfl rfl (by omega),
   (claim_C1_amended (some 100) (some 101) [] "/a.md" ["t"]).2.2.1 100 101 rfl rfl (by omega),
   (claim_C1_amended (some 100) none [] "/a.md" ["t"]).2.2.2 100 rfl rfl⟩

/-- Claim C1 counterexample: a file with NO watermark entry and an
unreadable mtime is indexed as New (chunks are inserted), not treated as
Skip — refuting "for every file whose mtime cannot be read, the file is
treated as Skip … regardless of whether a watermark entry exists". -/
theorem claim_C1_counterexample :
    decide_action none none = IndexAction.New ∧
    decide_action none none ≠ IndexAction.Skip ∧
    incr_process_file [] none "/b.md" none ["fresh content"] =
      [{ source_path := "/b.md", content := "fresh content" }] := by decide

/-- Claim C2 (amended): `search` performs no validation of `top_k`
whatsoever.  For every `top_k` — zero and negative included — the first
external call is the embedding call; when the embedding succeeds the store
is queried with `LIMIT top_k` passed through verbatim, and whatever the
store answers (for `top_k = 0` an empty row set) is returned as a success;
an embedding failure is propagated.  No invalid-argument error exists on
this path. -/
theorem claim_C2_amended {V R : Type} (embedF : String → Except String V)
    (storeF : V → Int → Except String (List R)) (query : String) (topK : Int) :
    (search embedF storeF query topK).2.head? = some (SearchEffect.embedCall query)
    ∧ (∀ v, embedF query = Except.ok v →
        (search embedF storeF query topK).1 = storeF v topK ∧
        (search embedF storeF query topK).2 =
          [SearchEffect.embedCall query, SearchEffect.storeQuery topK])
    ∧ (∀ e, embedF query = Except.error e →
        (search embedF storeF query topK).1 = Except.error e) := by
  refine ⟨?_, ?_, ?_⟩
  · rcases hE : embedF query with e | v
    · simp [search, hE]
    · rcases hS : storeF v topK with e | rows
      · simp [search, hE, hS]
      · simp [search, hE, hS]
  · intro v hv
    rcases hS : storeF v topK with e | rows
    · simp [search, hv, hS]
    · simp [search, hv, hS]
  · intro e he
    simp [search, he]

/-- Witness for claim C2: with `top_k = 0` and a store that answers the
`LIMIT 0` query with no rows, `search` succeeds with an empty result. -/
theorem claim_C2_witness :
    (search (fun _ => Except.ok 0) (fun _ _ => Except.ok ([] : List Nat)) "q" 0).1
      = Except.ok []
    ∧ (search (fun _ => Except.ok 0) (fun _ _ => Except.ok ([] : List Nat)) "q" 0).2
      = [SearchEffect.embedCall "q", SearchEffect.storeQuery 0] :=
  (claim_C2_amended (fun _ => Except.ok 0) (fun _ _ => Except.ok ([] : List Nat)) "q" 0).2.1
    0 rfl

/-- Claim C2 counterexample: a query with `top_k = 0` is NOT rejected:
the embedding call is performed first, the store query is issued with
limit 0, and the operation returns an empty result successfully instead
of an invalid-argument error. -/
theorem claim_C2_counterexample :
    search (fun _ => Except.ok ([] : List Int)) (fun _ _ => Except.ok ([] : List Nat))
        "query" 0
      = (Except.ok [], [SearchEffect.embedCall "query", SearchEffect.storeQuery 0]) := rfl

/-- Claim C10 (confirmed): the full index only ever inserts: the new store
is the old store with every file's chunks appended (so every pre-existing
chunk survives, for every source path), and running the full index twice
over the same file set appends a second, duplicate copy of every chunk. -/
theorem claim_C10_full_index_only_inserts (st : List Chunk)
    (files : List (String × List String)) :
    run_full_index_store st files
      = st ++ files.flatMap (fun f => f.2.map (fun t => { source_path := f.1, content := t }))
    ∧ run_full_index_store (run_full_index_store st files) files
      = st ++ files.flatMap (fun f => f.2.map (fun t => { source_path := f.1, content := t }))
           ++ files.flatMap (fun f => f.2.map (fun t => { source_path := f.1, content := t })) := by
  have key : ∀ (fs : List (String × List String)) (s : List Chunk),
      run_full_index_store s fs
        = s ++ fs.flatMap (fun f => f.2.map (fun t => { source_path := f.1, content := t })) := by
    intro fs
    induction fs with
    | nil => intro s; simp [run_full_index_store]
    | cons f rest ih =>
      intro s
      rw [run_full_index_store, List.foldl_cons, List.flatMap_cons]
      have : run_full_index_store (insert_chunks s f.1 f.2) rest
          = insert_chunks s f.1 f.2
            ++ rest.flatMap (fun f => f.2.map (fun t => { source_path := f.1, content := t })) :=
        ih (insert_chunks s f.1 f.2)
      rw [run_full_index_store] at this
      rw [this, insert_chunks, List.append_assoc]
  refine ⟨key files st, ?_⟩
  rw [key files st, key files _, List.append_assoc]

theorem lexLe_total (a : List Char) : ∀ b, lexLe a b = true ∨ lexLe b a = true := by
  induction a with
  | nil =>
    intro b
    left
    rfl
  | cons x xs ih =>
    intro b
    cases b with
    | nil =>
      right
      rfl
    | cons y ys =>
      by_cases hxy : x < y
      · left
        simp [lexLe, hxy]
      · by_cases hyx : y < x
        · right
          simp [lexLe, hyx]
        · rcases ih ys with h | h
          · left
            simp [lexLe, hxy, hyx, h]
          · right
            simp [lexLe, hyx, hxy, h]

theorem lexLe_trans : ∀ {a b c : List Char},
    lexLe a b = true → lexLe b c = true → lexLe a c = true := by
  intro a
  induction a with
  | nil =>
    intro b c _ _
    rfl
  | cons x xs ih =>
    intro b c hab hbc
    cases b with
    | nil => simp [lexLe] at hab
    | cons y ys =>
      cases c with
      | nil => simp [lexLe] at hbc
      | cons z zs =>
        simp only [lexLe] at hab hbc ⊢
        rcases lt_trichotomy x y with h1 | rfl | h1
        · rcases lt_trichotomy y z with h2 | rfl | h2
          · simp [lt_trans h1 h2]
          · simp [h1]
          · rw [if_neg (asymm h2), if_pos h2] at hbc
            simp at hbc
        · rw [if_neg (lt_irrefl x), if_neg (lt_irrefl x)] at hab
          rcases lt_trichotomy x z with h2 | rfl | h2
          · simp [h2]
          · rw [if_neg (lt_irrefl x), if_neg (lt_irrefl x)] at hbc ⊢
            exact ih hab hbc
          · rw [if_neg (asymm h2), if_pos h2] at hbc
            simp at hbc
        · rw [if_neg (asymm h1), if_pos h1] at hab
          simp at hab

theorem pathLe_trans (a b c : String) :
    pathLe a b = true → pathLe b c = true → pathLe a c = true :=
  fun h1 h2 => lexLe_trans h1 h2

theorem pathLe_total (a b : String) : (pathLe a b || pathLe b a) = true := by
  rcases lexLe_total a.data b.data with h | h <;> simp [pathLe, h]

/-- Claim C7 (amended): the full-index directory helpers process entries in
lexicographic (byte-wise path) order — the filtered enumeration is sorted,
and is a permutation of the filtered entries; the incremental index's
`collect_all_files`, by contrast, keeps the raw enumeration order of the
directory, without sorting. -/
theorem claim_C7_amended :
    (∀ ext entries,
      List.Pairwise (fun a b => pathLe a b = true) (index_dir_files ext entries)
      ∧ (index_dir_files ext entries).Perm
          (entries.filter (fun e => decide (extension e = some ext))))
    ∧ (∀ (readDir : String → Option (List String)) (fileExists : String → Bool)
        (dir label : String) (entries : List String), readDir dir = some entries →
        collect_all_files readDir fileExists
            [{ path := dir, source_type := "markdown_dir", source_label := some label }] =
          (entries.filter (fun e => decide (extension e = some "md"))).map
            (fun e => (e, "markdown", label))) := by
  refine ⟨?_, ?_⟩
  · intro ext entries
    rw [index_dir_files]
    exact ⟨List.sorted_mergeSort (fun a b c hab hbc => pathLe_trans a b c hab hbc)
      (fun a b => pathLe_total a b) _, List.mergeSort_perm _ _⟩
  · intro readDir fileExists dir label entries h
    simp [collect_all_files, h]

/-- Witness for claim C7 at concrete inputs. -/
theorem claim_C7_witness :
    List.Pairwise (fun a b => pathLe a b = true) (index_dir_files "md" ["d/b.md", "d/a.md"])
    ∧ (index_dir_files "md" ["d/b.md", "d/a.md"]).Perm ["d/b.md", "d/a.md"]
    ∧ collect_all_files (fun _ => some ["d/b.md", "d/a.md"]) (fun _ => false)
        [{ path := "d", source_type := "markdown_dir", source_label := some "daily_note" }] =
        [("d/b.md", "markdown", "daily_note"), ("d/a.md", "markdown", "daily_note")] := by
  refine ⟨(claim_C7_amended.1 "md" ["d/b.md", "d/a.md"]).1, ?_, ?_⟩
  · have h := (claim_C7_amended.1 "md" ["d/b.md", "d/a.md"]).2
    have hf : (["d/b.md", "d/a.md"].filter (fun e => decide (extension e = some "md")))
        = ["d/b.md", "d/a.md"] := by decide
    rw [hf] at h
    exact h
  · have h := claim_C7_amended.2 (fun _ => some ["d/b.md", "d/a.md"]) (fun _ => false)
      "d" "daily_note" ["d/b.md", "d/a.md"] rfl
    rw [h]
    decide

/-- Claim C7 counterexample: the incremental index processes a directory in
raw enumeration order — here `d/b.md` before `d/a.md` — which is not
lexicographic order, refuting "in both the full-index and the
incremental-index operations". -/
theorem claim_C7_counterexample :
    collect_all_files (fun _ => some ["d/b.md", "d/a.md"]) (fun _ => false)
        [{ path := "d", source_type := "markdown_dir", source_label := none }] =
      [("d/b.md", "markdown", "daily_note"), ("d/a.md", "markdown", "daily_note")]
    ∧ pathLe "d/b.md" "d/a.md" = false := by decide

theorem findDate_none_iff :
    ∀ l : List Char, (findDate l = none ↔ ∀ i, dateAt (l.drop i) = false) := by
  intro l
  induction l with
  | nil =>
    constructor
    · intro _ i
      rw [List.drop_nil]
      rfl
    · intro _
      rfl
  | cons c rest ih =>
    by_cases h : dateAt (c :: rest) = true
    · rw [findDate, if_pos h]
      constructor
      · intro hc
        simp at hc
      · intro hall
        have h0 := hall 0
        rw [List.drop_zero, h] at h0
        simp at h0
    · have hf : dateAt (c :: rest) = false := by
        cases hd : dateAt (c :: rest)
        · rfl
        · exact absurd hd h
      rw [findDate, if_neg h, ih]
      constructor
      · intro hall i
        cases i with
        | zero =>
          rw [List.drop_zero]
          exact hf
        | succ n =>
          rw [List.drop_succ_cons]
          exact hall n
      · intro hall i
        have := hall (i + 1)
        rw [List.drop_succ_cons] at this
        exact this

theorem findDate_some_iff :
    ∀ (l : List Char) (d : String),
      (findDate l = some d ↔ ∃ i, dateAt (l.drop i) = true ∧
        d = String.mk ((l.drop i).take 10) ∧ ∀ j, j < i → dateAt (l.drop j) = false) := by
  intro l
  induction l with
  | nil =>
    intro d
    simp only [findDate]
    constructor
    · intro hc
      simp at hc
    · rintro ⟨i, hi, _⟩
      rw [List.drop_nil] at hi
      simp [dateAt] at hi
  | cons c rest ih =>
    intro d
    by_cases h : dateAt (c :: rest) = true
    · rw [findDate, if_pos h]
      constructor
      · intro hd
        rw [Option.some.injEq] at hd
        refine ⟨0, ?_, ?_, fun j hj => absurd hj (Nat.not_lt_zero j)⟩
        · rw [List.drop_zero]
          exact h
        · rw [List.drop_zero, ← hd]
      · rintro ⟨i, hi, hd, hmin⟩
        cases i with
        | zero =>
          rw [List.drop_zero] at hd
          rw [hd]
        | succ n =>
          have h0 := hmin 0 (Nat.succ_pos n)
          rw [List.drop_zero, h] at h0
          simp at h0
    · have hf : dateAt (c :: rest) = false := by
        cases hd : dateAt (c :: rest)
        · rfl
        · exact absurd hd h
      rw [findDate, if_neg h, ih d]
      constructor
      · rintro ⟨i, hi, hd, hmin⟩
        refine ⟨i + 1, ?_, ?_, ?_⟩
        · rw [List.drop_succ_cons]
          exact hi
        · rw [List.drop_succ_cons]
          exact hd
        · intro j hj
          cases j with
          | zero =>
            rw [List.drop_zero]
            exact hf
          | succ m =>
            rw [List.drop_succ_cons]
            exact hmin m (by omega)
      · rintro ⟨i, hi, hd, hmin⟩
        cases i with
        | zero =>
          rw [List.drop_zero] at hi
          rw [hi] at hf
          simp at hf
        | succ n =>
          rw [List.drop_succ_cons] at hi hd
          refine ⟨n, hi, hd, ?_⟩
          intro j hj
          have := hmin (j + 1) (by omega)
          rw [List.drop_succ_cons] at this
          exact this

/-- Claim C8 (confirmed): `extract_date` returns the first (leftmost)
substring matching 4 digits, hyphen, 2 digits, hyphen, 2 digits, anywhere
in the name, verbatim and without calendar validation; it returns nothing
exactly when no position matches.  The spec's concrete examples hold. -/
theorem claim_C8_first_match (s : String) :
    extract_date "2026-01-30.md" = some "2026-01-30"
    ∧ extract_date "notes.md" = none
    ∧ extract_date "log-2026-01-30-final.jsonl" = some "2026-01-30"
    ∧ extract_date "2026-13-99" = some "2026-13-99"
    ∧ (extract_date s = none ↔ ∀ i, dateAt (s.data.drop i) = false)
    ∧ (∀ d, extract_date s = some d ↔ ∃ i, dateAt (s.data.drop i) = true ∧
        d = String.mk ((s.data.drop i).take 10) ∧ ∀ j, j < i → dateAt (s.data.drop j) = false) :=
  ⟨by decide, by decide, by decide, by decide,
   findDate_none_iff s.data, fun d => findDate_some_iff s.data d⟩

/-- Witness for claim C8: the match at position 4 of
`"log-2026-01-30-final.jsonl"` is the first one, so it is returned. -/
theorem claim_C8_witness : extract_date "log-2026-01-30-final.jsonl" = some "2026-01-30" :=
  ((claim_C8_first_match "log-2026-01-30-final.jsonl").2.2.2.2.2 "2026-01-30").mpr
    ⟨4, by decide, by decide, fun j hj => by interval_cases j <;> decide⟩

theorem mem_of_getLast?_eq {α : Type} {l : List α} {a : α} (h : l.getLast? = some a) :
    a ∈ l := by
  have hl : l.dropLast ++ [a] = l := List.dropLast_append_getLast? a h
  rw [← hl]
  exact List.mem_append_right _ (List.mem_singleton.mpr rfl)

theorem splitCh_ne_nil (l : List Char) : splitCh l ≠ [] := by
  cases l with
  | nil => simp [splitCh]
  | cons c rest =>
    rw [splitCh]
    by_cases h : c = '\n'
    · rw [if_pos h]
      simp
    · rw [if_neg h]
      cases splitCh rest with
      | nil => simp
      | cons x xs => simp

theorem splitCh_append_nl : ∀ (l r : List Char), (∀ c ∈ l, c ≠ '\n') →
    splitCh (l ++ '\n' :: r) = l :: splitCh r := by
  intro l
  induction l with
  | nil =>
    intro r _
    rw [List.nil_append, splitCh, if_pos rfl]
  | cons c cs ih =>
    intro r h
    have hc : c ≠ '\n' := h c (List.mem_cons_self c cs)
    rw [List.cons_append, splitCh, if_neg hc,
      ih r (fun x hx => h x (List.mem_cons_of_mem c hx))]

theorem splitCh_piece_le : ∀ l : List Char, ∀ p ∈ splitCh l, utf8Len p ≤ utf8Len l := by
  intro l
  induction l with
  | nil =>
    intro p hp
    simp [splitCh] at hp
    subst hp
    exact Nat.le_refl _
  | cons c rest ih =>
    intro p hp
    rw [splitCh] at hp
    by_cases h : c = '\n'
    · rw [if_pos h] at hp
      rcases List.mem_cons.mp hp with rfl | hp'
      · exact Nat.zero_le _
      · calc utf8Len p ≤ utf8Len rest := ih p hp'
          _ ≤ utf8Len (c :: rest) := by rw [utf8Len_cons]; omega
    · rw [if_neg h] at hp
      cases hs : splitCh rest with
      | nil =>
        rw [hs] at hp
        rcases List.mem_singleton.mp hp with rfl
        rw [utf8Len_cons, utf8Len_cons, utf8Len_nil]
        omega
      | cons x xs =>
        rw [hs] at hp
        rcases List.mem_cons.mp hp with rfl | hp'
        · rw [utf8Len_cons, utf8Len_cons]
          have hx : utf8Len x ≤ utf8Len rest := by
            apply ih x
            rw [hs]
            exact List.mem_cons_self x xs
          omega
        · have hp'' : utf8Len p ≤ utf8Len rest := by
            apply ih p
            rw [hs]
            exact List.mem_cons_of_mem x hp'
          rw [utf8Len_cons]
          omega

theorem stripCR_le (l : List Char) : utf8Len (stripCR l) ≤ utf8Len l := by
  rw [stripCR]
  by_cases h : l.getLast? = some '\r'
  · rw [if_pos h]
    have hl : l.dropLast ++ ['\r'] = l := List.dropLast_append_getLast? '\r' h
    calc utf8Len l.dropLast ≤ utf8Len l.dropLast + utf8Len ['\r'] := Nat.le_add_right _ _
      _ = utf8Len (l.dropLast ++ ['\r']) := (utf8Len_append _ _).symm
      _ = utf8Len l := by rw [hl]
  · rw [if_neg h]

theorem rustLines_len_le (text : String) :
    ∀ line ∈ rustLines text, rustLen line ≤ rustLen text := by
  have hinit : ∀ x ∈ (splitCh text.data).dropLast.map (fun l => String.mk (stripCR l)),
      rustLen x ≤ rustLen text := by
    intro x hx
    obtain ⟨q, hq, rfl⟩ := List.mem_map.mp hx
    have hq' : q ∈ splitCh text.data := (List.dropLast_sublist _).subset hq
    calc rustLen (String.mk (stripCR q)) = utf8Len (stripCR q) := rfl
      _ ≤ utf8Len q := stripCR_le q
      _ ≤ utf8Len text.data := splitCh_piece_le _ q hq'
  intro line hline
  rw [rustLines] at hline
  rcases hg : (splitCh text.data).getLast? with _ | l
  · rw [hg] at hline
    exact hinit line hline
  · cases l with
    | nil =>
      rw [hg] at hline
      exact hinit line hline
    | cons a as =>
      rw [hg] at hline
      rcases List.mem_append.mp hline with hm | hm
      · exact hinit line hm
      · rcases List.mem_singleton.mp hm with rfl
        calc rustLen (String.mk (a :: as)) = utf8Len (a :: as) := rfl
          _ ≤ utf8Len text.data := splitCh_piece_le _ _ (mem_of_getLast?_eq hg)

theorem trimL_stripCR (l : List Char) : trimL (stripCR l) = trimL l := by
  rw [stripCR]
  by_cases h : l.getLast? = some '\r'
  · rw [if_pos h]
    have hl : l.dropLast ++ ['\r'] = l := List.dropLast_append_getLast? '\r' h
    conv_rhs => rw [← hl]
    generalize l.dropLast = a
    rw [trimL, trimL, List.dropWhile_append]
    cases hd : a.dropWhile wsChar with
    | nil =>
      have : (List.dropWhile wsChar ['\r']) = [] := by decide
      simp [this]
    | cons d ds =>
      simp only [List.isEmpty_cons, if_false, Bool.false_eq_true]
      rw [List.reverse_append]
      have : ['\r'].reverse = ['\r'] := rfl
      rw [this, List.singleton_append, List.dropWhile_cons]
      have hws : wsChar '\r' = true := by decide
      rw [hws]
      simp
  · rw [if_neg h]

theorem rustLines_cons (l1 text : String) (h : ∀ c ∈ l1.data, c ≠ '\n') :
    rustLines (l1 ++ "\n" ++ text) = String.mk (stripCR l1.data) :: rustLines text := by
  have hdata : (l1 ++ "\n" ++ text).data = l1.data ++ '\n' :: text.data := by
    rw [String.data_append, String.data_append, List.append_assoc]
    rfl
  have hsplit : splitCh (l1 ++ "\n" ++ text).data = l1.data :: splitCh text.data := by
    rw [hdata]
    exact splitCh_append_nl l1.data text.data h
  obtain ⟨x, xs, hx⟩ : ∃ x xs, splitCh text.data = x :: xs := by
    cases hs : splitCh text.data with
    | nil => exact absurd hs (splitCh_ne_nil _)
    | cons x xs => exact ⟨x, xs, rfl⟩
  rw [rustLines, rustLines, hsplit, hx, List.getLast?_cons_cons, List.dropLast_cons₂,
    List.map_cons]
  rcases hg : (x :: xs).getLast? with _ | l
  · exact absurd hg (by simp)
  · cases l with
    | nil => rfl
    | cons a as => rfl

theorem keepRC_iff (rc : String × String) :
    keepRC rc = true ↔ (rc.1 = "user" ∨ rc.1 = "assistant") ∧ 20 < rustLen rc.2 := by
  simp [keepRC]

/-- Claim C5 (amended): with content length measured in UTF-8 bytes (Rust
`len()`): a line that trims non-empty and parses to a record is retained
iff the normalized role is exactly `"user"` or `"assistant"` and the
normalized content exceeds 20 bytes; a record whose role is `"system"` is
never retained, whatever its content length; and a line the parser rejects
is skipped while every following line is processed exactly as before. -/
theorem claim_C5_amended :
    (∀ (fromStr : String → Option Json) (line : String) (j : Json),
      rustTrim line ≠ "" → fromStr (rustTrim line) = some j →
      ((lineMsg fromStr line).isSome = true ↔
        ((extractRC j).1 = "user" ∨ (extractRC j).1 = "assistant") ∧
          20 < rustLen (extractRC j).2))
    ∧ (∀ (fromStr : String → Option Json) (line : String) (j : Json),
      fromStr (rustTrim line) = some j → (extractRC j).1 = "system" →
      lineMsg fromStr line = none)
    ∧ (∀ (fromStr : String → Option Json) (l1 text : String),
      (∀ c ∈ l1.data, c ≠ '\n') → fromStr (rustTrim l1) = none →
      transcriptMessages fromStr (l1 ++ "\n" ++ text) = transcriptMessages fromStr text) := by
  refine ⟨?_, ?_, ?_⟩
  · intro fromStr line j hne hj
    rw [lineMsg, if_neg hne, hj]
    show (if keepRC (extractRC j) = true then some (renderMsg (extractRC j))
      else none).isSome = true ↔ _
    by_cases hk : keepRC (extractRC j) = true
    · rw [if_pos hk]
      simp only [Option.isSome_some, true_iff]
      exact (keepRC_iff _).mp hk
    · rw [if_neg hk, ← keepRC_iff]
      simp only [Option.isSome_none, Bool.false_eq_true, false_iff]
      exact hk
  · intro fromStr line j hj hrole
    rw [lineMsg]
    by_cases hne : rustTrim line = ""
    · rw [if_pos hne]
    · rw [if_neg hne, hj]
      show (if keepRC (extractRC j) = true then some (renderMsg (extractRC j))
        else none) = none
      have hk : keepRC (extractRC j) = false := by
        rw [keepRC, hrole]
        simp
      rw [hk]
      simp
  · intro fromStr l1 text hnl hfail
    rw [transcriptMessages, transcriptMessages, rustLines_cons l1 text hnl,
      List.filterMap_cons]
    have hnone : lineMsg fromStr (String.mk (stripCR l1.data)) = none := by
      rw [lineMsg]
      have htrim : rustTrim (String.mk (stripCR l1.data)) = rustTrim l1 :=
        congrArg String.mk (trimL_stripCR l1.data)
      rw [htrim]
      by_cases hne : rustTrim l1 = ""
      · rw [if_pos hne]
      · rw [if_neg hne, hfail]
    rw [hnone]

/-- Witness for claim C5 at concrete inputs: a parse-failing line followed
by nothing yields no messages, and a retained simple-format record is kept. -/
theorem claim_C5_witness :
    transcriptMessages (fun _ => none) ("not json" ++ "\n" ++ "") =
      transcriptMessages (fun _ => none) ""
    ∧ lineMsg
        (fun l => if l = "sys" then some (Json.obj [("role", Json.str "system"),
          ("content", Json.str "a long enough system prompt")]) else none) "sys" = none :=
  ⟨claim_C5_amended.2.2 (fun _ => none) "not json" "" (by decide) rfl,
   claim_C5_amended.2.1
     (fun l => if l = "sys" then some (Json.obj [("role", Json.str "system"),
       ("content", Json.str "a long enough system prompt")]) else none) "sys"
     (Json.obj [("role", Json.str "system"),
       ("content", Json.str "a long enough system prompt")]) rfl (by decide)⟩

/-- Claim C5 counterexample: the retained record
`("role":"user", "content":"€€€€€€€")` has content of 7 characters — not
more than 20 — yet is retained, because chunk.rs line 95 compares
`content.len()` in BYTES (21 here), refuting the claimed
character-measured retention condition. -/
theorem claim_C5_counterexample :
    parse_transcript
      (fun line =>
        if line = "\x7b\"role\":\"user\",\"content\":\"€€€€€€€\"\x7d" then
          some (Json.obj [("role", Json.str "user"), ("content", Json.str "€€€€€€€")])
        else none)
      "\x7b\"role\":\"user\",\"content\":\"€€€€€€€\"\x7d"
      = ["[user] €€€€€€€"]
    ∧ ("€€€€€€€" : String).length = 7
    ∧ ¬ (20 < ("€€€€€€€" : String).length) := by decide

theorem joinSep_len_le : ∀ ts : List String,
    rustLen (joinSep " " ts) ≤ (ts.map rustLen).sum + ts.length := by
  intro ts
  induction ts with
  | nil => decide
  | cons t rest ih =>
    cases rest with
    | nil => simp [joinSep]
    | cons u us =>
      rw [show joinSep " " (t :: u :: us) = t ++ " " ++ joinSep " " (u :: us) from rfl,
        rustLen_append, rustLen_append]
      have h1 : rustLen " " = 1 := rfl
      rw [List.map_cons, List.sum_cons]
      simp only [List.length_cons] at ih ⊢
      omega

theorem sum_map_eleven (ts : List String) :
    (ts.map (fun t => 11 + rustLen t)).sum = 11 * ts.length + (ts.map rustLen).sum := by
  induction ts with
  | nil => simp
  | cons t rest ih =>
    rw [List.map_cons, List.sum_cons, List.map_cons, List.sum_cons, ih, List.length_cons]
    ring

theorem segText_lb (fuel : Nat) (x : Json) (t : String) (h : segText x = some t) :
    11 + rustLen t ≤ jsonLBF (fuel + 2) x := by
  rw [segText] at h
  by_cases hty : (x.get "type").bind Json.asStr = some "text"
  · rw [if_pos hty] at h
    obtain ⟨fields, rfl⟩ : ∃ fields, x = Json.obj fields := by
      cases x with
      | obj fields => exact ⟨fields, rfl⟩
      | null => simp [Json.get] at hty
      | bool b => simp [Json.get] at hty
      | num n => simp [Json.get] at hty
      | str s => simp [Json.get] at hty
      | arr xs => simp [Json.get] at hty
    rw [Json.get] at h
    cases hf : fields.find? (fun f => decide (f.1 = "text")) with
    | none =>
      rw [hf] at h
      simp at h
    | some f =>
      rw [hf] at h
      simp only [Option.map_some'] at h
      have hmem : f ∈ fields := List.mem_of_find?_eq_some hf
      have hkey : f.1 = "text" := by
        have h0 := List.find?_some hf
        simpa using h0
      have hval : f.2 = Json.str t := by
        cases f2 : f.2 <;> rw [f2] at h <;> simp [Json.asStr] at h
        rw [h]
      have hb : jsonLBF (fuel + 2) (Json.obj fields)
          = 2 + (fields.map (fun f => 3 + rustLen f.1 + jsonLBF (fuel + 1) f.2)).sum := rfl
      have helem : 3 + rustLen f.1 + jsonLBF (fuel + 1) f.2
          ∈ fields.map (fun f => 3 + rustLen f.1 + jsonLBF (fuel + 1) f.2) :=
        List.mem_map_of_mem _ hmem
      have hle := List.single_le_sum (fun x _ => Nat.zero_le x) _ helem
      have h4 : rustLen f.1 = 4 := by
        rw [hkey]
        decide
      have hstr : jsonLBF (fuel + 1) f.2 = 2 + rustLen t := by
        rw [hval]
        rfl
      rw [hb]
      omega
  · rw [if_neg hty] at h
    simp at h

theorem filterMap_segText_lb (fuel : Nat) : ∀ xs : List Json,
    ((xs.filterMap segText).map (fun t => 11 + rustLen t)).sum ≤
      (xs.map (fun x => jsonLBF (fuel + 2) x)).sum := by
  intro xs
  induction xs with
  | nil => simp
  | cons x rest ih =>
    cases hs : segText x with
    | none =>
      simp only [List.filterMap_cons, hs, List.map_cons, List.sum_cons]
      omega
    | some t =>
      simp only [List.filterMap_cons, hs, List.map_cons, List.sum_cons]
      have := segText_lb fuel x t hs
      omega

theorem contentOf_lb (fuel : Nat) (v : Json) (h : 20 < rustLen (contentOf (some v))) :
    23 ≤ jsonLBF (fuel + 3) v := by
  cases v with
  | null => exact absurd h (by decide)
  | bool b =>
    have hc : contentOf (some (Json.bool b)) = "" := rfl
    rw [hc] at h
    exact absurd h (by decide)
  | num n =>
    have hc : contentOf (some (Json.num n)) = "" := rfl
    rw [hc] at h
    exact absurd h (by decide)
  | obj fields =>
    have hc : contentOf (some (Json.obj fields)) = "" := rfl
    rw [hc] at h
    exact absurd h (by decide)
  | str s =>
    have hb : jsonLBF (fuel + 3) (Json.str s) = 2 + rustLen s := rfl
    have hc : contentOf (some (Json.str s)) = s := rfl
    rw [hc] at h
    omega
  | arr xs =>
    have hc : contentOf (some (Json.arr xs)) = joinSep " " (xs.filterMap segText) := rfl
    rw [hc] at h
    have hk : 1 ≤ (xs.filterMap segText).length := by
      cases hts : xs.filterMap segText with
      | nil =>
        rw [hts] at h
        exact absurd h (by decide)
      | cons a as => simp
    have hj := joinSep_len_le (xs.filterMap segText)
    have hsum := filterMap_segText_lb fuel xs
    have heq := sum_map_eleven (xs.filterMap segText)
    have hb : jsonLBF (fuel + 3) (Json.arr xs)
        = 2 + (xs.map (fun x => jsonLBF (fuel + 2) x)).sum := rfl
    rw [hb]
    omega

theorem content_field_lb (fuel : Nat) (msg : Json)
    (hc : 20 < rustLen (contentOf (msg.get "content"))) :
    30 ≤ jsonLBF (fuel + 4) msg := by
  cases hv : msg.get "content" with
  | none =>
    rw [hv] at hc
    exact absurd hc (by decide)
  | some v =>
    rw [hv] at hc
    obtain ⟨fields, rfl⟩ : ∃ fields, msg = Json.obj fields := by
      cases msg with
      | obj fields => exact ⟨fields, rfl⟩
      | null => simp [Json.get] at hv
      | bool b => simp [Json.get] at hv
      | num n => simp [Json.get] at hv
      | str s => simp [Json.get] at hv
      | arr xs => simp [Json.get] at hv
    rw [Json.get] at hv
    cases hf : fields.find? (fun f => decide (f.1 = "content")) with
    | none =>
      rw [hf] at hv
      simp at hv
    | some f =>
      rw [hf] at hv
      simp only [Option.map_some', Option.some.injEq] at hv
      subst hv
      have hmem : f ∈ fields := List.mem_of_find?_eq_some hf
      have hkey : f.1 = "content" := by
        have h0 := List.find?_some hf
        simpa using h0
      have hb : jsonLBF (fuel + 4) (Json.obj fields)
          = 2 + (fields.map (fun f => 3 + rustLen f.1 + jsonLBF (fuel + 3) f.2)).sum := rfl
      have helem : 3 + rustLen f.1 + jsonLBF (fuel + 3) f.2
          ∈ fields.map (fun f => 3 + rustLen f.1 + jsonLBF (fuel + 3) f.2) :=
        List.mem_map_of_mem _ hmem
      have hle := List.single_le_sum (fun x _ => Nat.zero_le x) _ helem
      have h7 : rustLen f.1 = 7 := by
        rw [hkey]
        decide
      have hcl := contentOf_lb fuel f.2 hc
      rw [hb]
      omega

theorem extractRC_snd (j : Json) :
    (extractRC j).2 = if (j.get "type").bind Json.asStr = some "message" then
      contentOf (((j.get "message").getD j).get "content")
    else contentOf (j.get "content") := by
  rw [extractRC]
  by_cases hty : (j.get "type").bind Json.asStr = some "message"
  · rw [if_pos hty, if_pos hty]
  · rw [if_neg hty, if_neg hty]

theorem retained_lb (fuel : Nat) (j : Json) (h : keepRC (extractRC j) = true) :
    30 ≤ jsonLBF (fuel + 5) j := by
  have hc : 20 < rustLen (extractRC j).2 := ((keepRC_iff _).mp h).2
  rw [extractRC_snd] at hc
  by_cases hty : (j.get "type").bind Json.asStr = some "message"
  · rw [if_pos hty] at hc
    cases hm : j.get "message" with
    | none =>
      rw [hm] at hc
      simp only [Option.getD_none] at hc
      have h5 := content_field_lb (fuel + 1) j hc
      have he : fuel + 1 + 4 = fuel + 5 := by omega
      rw [he] at h5
      exact h5
    | some msg =>
      rw [hm] at hc
      simp only [Option.getD_some] at hc
      have hmsg := content_field_lb fuel msg hc
      obtain ⟨fields, rfl⟩ : ∃ fields, j = Json.obj fields := by
        cases j with
        | obj fields => exact ⟨fields, rfl⟩
        | null => simp [Json.get] at hm
        | bool b => simp [Json.get] at hm
        | num n => simp [Json.get] at hm
        | str s => simp [Json.get] at hm
        | arr xs => simp [Json.get] at hm
      rw [Json.get] at hm
      cases hf : fields.find? (fun f => decide (f.1 = "message")) with
      | none =>
        rw [hf] at hm
        simp at hm
      | some f =>
        rw [hf] at hm
        simp only [Option.map_some', Option.some.injEq] at hm
        have hmem : f ∈ fields := List.mem_of_find?_eq_some hf
        have hkey : f.1 = "message" := by
          have h0 := List.find?_some hf
          simpa using h0
        have hb : jsonLBF (fuel + 5) (Json.obj fields)
            = 2 + (fields.map (fun f => 3 + rustLen f.1 + jsonLBF (fuel + 4) f.2)).sum := rfl
        have helem : 3 + rustLen f.1 + jsonLBF (fuel + 4) f.2
            ∈ fields.map (fun f => 3 + rustLen f.1 + jsonLBF (fuel + 4) f.2) :=
          List.mem_map_of_mem _ hmem
        have hle := List.single_le_sum (fun x _ => Nat.zero_le x) _ helem
        have h7 : rustLen f.1 = 7 := by
          rw [hkey]
          decide
        rw [hm] at hle
        rw [hb]
        omega
  · rw [if_neg hty] at hc
    have h5 := content_field_lb (fuel + 1) j hc
    have he : fuel + 1 + 4 = fuel + 5 := by omega
    rw [he] at h5
    exact h5

/-- Claim C6 (amended): the minimum source-file length is measured in
BYTES (Rust `len()`), not characters.  A markdown file shorter than 30
bytes is explicitly rejected before chunking and stores nothing.
Transcript files carry no explicit length check, but the outcome still
holds: under the (true of `serde_json`) assumption that the parser only
accepts a line at least as long as the minimal serialization of the value
it returns (`jsonLBF`, at every depth cutoff `fuel`), no transcript text
shorter than 30 bytes can yield a retained message, so it produces zero
chunks as well. -/
theorem claim_C6_amended :
    (∀ text : String, rustLen text < 30 → index_markdown_chunks text = [])
    ∧ (∀ (fromStr : String → Option Json) (text : String),
        (∀ (fuel : Nat) (line : String) (j : Json),
          fromStr line = some j → jsonLBF fuel j ≤ rustLen line) →
        rustLen text < 30 → parse_transcript fromStr text = []) := by
  refine ⟨?_, ?_⟩
  · intro text hlen
    rw [index_markdown_chunks, if_pos hlen]
  · intro fromStr text hp hlen
    have hmsgs : transcriptMessages fromStr text = [] := by
      rw [transcriptMessages, List.filterMap_eq_nil_iff]
      intro line hline
      rw [lineMsg]
      by_cases hne : rustTrim line = ""
      · rw [if_pos hne]
      · rw [if_neg hne]
        cases hj : fromStr (rustTrim line) with
        | none => rfl
        | some j =>
          show (if keepRC (extractRC j) = true then some (renderMsg (extractRC j))
            else none) = none
          by_cases hk : keepRC (extractRC j) = true
          · exfalso
            have h30 : 30 ≤ jsonLBF 5 j := retained_lb 0 j hk
            have hlb : jsonLBF 5 j ≤ rustLen (rustTrim line) := hp 5 (rustTrim line) j hj
            have htl : rustLen (rustTrim line) ≤ rustLen line := rustLen_trim_le line
            have hll : rustLen line ≤ rustLen text := rustLines_len_le text line hline
            omega
          · rw [if_neg hk]
    rw [parse_transcript, if_pos hmsgs]

/-- Witness for claim C6 at concrete inputs (a 10-byte markdown file and a
5-byte transcript with a parser stub that accepts nothing, for which the
serialization-length hypothesis holds vacuously). -/
theorem claim_C6_witness :
    index_markdown_chunks "short note" = [] ∧
    parse_transcript (fun _ => none) "short" = [] :=
  ⟨claim_C6_amended.1 "short note" (by decide),
   claim_C6_amended.2 (fun _ => none) "short" (fun _ _ _ h => nomatch h) (by decide)⟩

/-- Claim C6 counterexample: a markdown file of ten 3-byte characters is
10 characters long — fewer than 30 characters — yet passes the `< 30`
check (it is 30 bytes) and produces a stored chunk, refuting the claimed
character-based minimum. -/
theorem claim_C6_counterexample :
    index_markdown_chunks "€€€€€€€€€€" = ["€€€€€€€€€€"] ∧
    ("€€€€€€€€€€" : String).length = 10 ∧
    ¬ (30 ≤ ("€€€€€€€€€€" : String).length) := by decide
